import Mathlib

/-!
Verification of `scripts/audit_vercel_fixtures.py`.

The script audits fixture coverage and drift between an upstream repository
("ai") and a local fixture corpus ("siumai").  We give a shallow embedding:

* Python strings are modelled as `Str := List Char` (so `split`, `join`,
  `startswith` and slicing become list operations with Python semantics);
* filesystem paths are lists of path components (`FsPath := List Str`),
  rendered to a string with `/` separators for sorting;
* a directory tree is the inductive `FS`; `pathlib`'s `rglob` becomes the
  recursive enumeration `FS.entriesUnder`; a nonexistent root directory is
  `Option.none` (globbing it yields nothing);
* `sha256(path)` (reading a file and hashing it) is an oracle
  `hashOf : FsPath → Digest` passed explicitly, since the script only ever
  compares digest values.
-/

/-- A Python string: a list of characters. -/
abbrev Str := List Char

/-- A filesystem path, as its list of components (`pathlib.PurePath.parts`). -/
abbrev FsPath := List Str

/-- A content digest (`hashlib.sha256(...).hexdigest()`). -/
abbrev Digest := List Char

/-- `s.split(sep)` for a single-character separator `sep`, Python semantics:
the result is never empty, and empty fields are kept
(`"".split(".") == [""]`, `"a..b".split(".") == ["a", "", "b"]`). -/
def splitOnChar (sep : Char) : Str → List Str
  | [] => [[]]
  | x :: xs =>
    match splitOnChar sep xs with
    | [] => [[]]
    | r :: rs => if x = sep then [] :: r :: rs else (x :: r) :: rs

/-- `str.join`-with-`"."` is `List.intercalate ['.']`; rendering a path is
`List.intercalate ['/']`.  (Both via Mathlib's `List.intercalate`.) -/
def pathStr (p : FsPath) : Str := List.intercalate ['/'] p

/-- The dataclass `UpstreamFixture(package, path)` (frozen, so equality is
componentwise). -/
structure UpstreamFixture where
  package : Str
  path : FsPath
deriving DecidableEq

/-- `UpstreamFixture.name`: the final path component (`self.path.name`). -/
def UpstreamFixture.name (f : UpstreamFixture) : Str := f.path.getLastD []

/-- The body of the `UpstreamFixture.case_id` property, as a function of the
filename:
```
parts = self.name.split(".")
if len(parts) >= 3 and parts[-2:] == ["chunks", "txt"]:
    return ".".join(parts[:-2])
if len(parts) >= 2:
    return ".".join(parts[:-1])
return self.name
``` -/
def case_id_of (name : Str) : Str :=
  let parts := splitOnChar '.' name
  if 3 ≤ parts.length ∧ parts.drop (parts.length - 2) = ["chunks".data, "txt".data] then
    List.intercalate ['.'] (parts.take (parts.length - 2))
  else if 2 ≤ parts.length then
    List.intercalate ['.'] parts.dropLast
  else name

/-- `UpstreamFixture.case_id` (a derived property of the fixture's name). -/
def UpstreamFixture.case_id (f : UpstreamFixture) : Str := case_id_of f.name

/-- `normalize_case_id(package, case_id)`: strip the provider's own prefix,
package-scoped. -/
def normalize_case_id (package : Str) (case_id : Str) : Str :=
  if package = "openai".data ∧ "openai-".data.isPrefixOf case_id then
    case_id.drop "openai-".data.length
  else if package = "xai".data ∧ "xai-".data.isPrefixOf case_id then
    case_id.drop "xai-".data.length
  else case_id

/-- `case_dir_exists(dir_names, normalized_case_id)`: exact directory-name
match, or a fan-out directory `normalized_case_id + "-..."`. -/
def case_dir_exists (dir_names : List Str) (normalized_case_id : Str) : Bool :=
  if normalized_case_id ∈ dir_names then true
  else dir_names.any fun nm => (normalized_case_id ++ ['-']).isPrefixOf nm


/-! ### The filesystem model -/

/-- A directory tree: a node is a regular file (with byte content) or a
directory with a list of children. -/
inductive FS where
  | file (nodeName : Str) (content : List Nat)
  | dir (nodeName : Str) (children : List FS)

/-- The base name of an entry (`pathlib.PurePath.name`). -/
def FS.name : FS → Str
  | .file n _ => n
  | .dir n _ => n

/-- `Path.is_dir()`. -/
def FS.isDir : FS → Bool
  | .file _ _ => false
  | .dir _ _ => true

/-- `Path.is_file()`. -/
def FS.isFile : FS → Bool
  | .file _ _ => true
  | .dir _ _ => false

mutual
/-- `root.rglob("*")` relative to `root`: every entry strictly below the
node, with its relative path (list of components).  The root itself is not
listed. -/
def FS.entriesUnder : FS → List (FsPath × FS)
  | .file _ _ => []
  | .dir _ cs => FS.entriesUnderList cs

/-- Entries contributed by a list of children: each child itself, then the
child's own descendants with the child's name prepended. -/
def FS.entriesUnderList : List FS → List (FsPath × FS)
  | [] => []
  | c :: cs =>
    ([c.name], c) :: ((FS.entriesUnder c).map fun pe => (c.name :: pe.1, pe.2))
      ++ FS.entriesUnderList cs
end

/-- `root.rglob("*")` when `root` may not exist: globbing a nonexistent
directory silently yields nothing. -/
def rglobEntries (root : Option FS) : List (FsPath × FS) :=
  match root with
  | none => []
  | some t => t.entriesUnder

/-- The literal directory name `__fixtures__`. -/
def fixturesDirName : Str := "__fixtures__".data

/-- `fixtures_dir.relative_to(packages_root).parts[0]`, with the script's
`except Exception: package = "unknown"` fallback. -/
def packageOf (rel : FsPath) : Str :=
  match rel with
  | [] => "unknown".data
  | p :: _ => p

/-- `iter_upstream_fixtures(ai_root)`:
glob `ai_root/packages` for entries named `__fixtures__`, skip non-directories,
collect every regular file below each hit, and sort the result by the path
rendered as a string.  `packagesDir` is the tree rooted at
`ai_root/packages`, or `none` when that directory does not exist. -/
def iter_upstream_fixtures (aiRoot : FsPath) (packagesDir : Option FS) :
    List UpstreamFixture :=
  let out := (rglobEntries packagesDir).flatMap fun dpe =>
    if dpe.2.name = fixturesDirName ∧ dpe.2.isDir then
      ((dpe.2.entriesUnder).filter fun fpe => fpe.2.isFile).map fun fpe =>
        { package := packageOf dpe.1
          path := aiRoot ++ ["packages".data] ++ dpe.1 ++ fpe.1 }
    else []
  out.mergeSort fun a b => decide (pathStr a.path ≤ pathStr b.path)

/-- `file_index.setdefault(p.name, []).append(p)` on an association list that
keeps insertion order. -/
def indexInsert (idx : List (Str × List FsPath)) (nm : Str) (p : FsPath) :
    List (Str × List FsPath) :=
  match idx with
  | [] => [(nm, [p])]
  | (n, ps) :: rest =>
    if n = nm then (n, ps ++ [p]) :: rest else (n, ps) :: indexInsert rest nm p

/-- `file_index.get(name, [])`. -/
def indexGet (idx : List (Str × List FsPath)) (nm : Str) : List FsPath :=
  match idx with
  | [] => []
  | (n, ps) :: rest => if n = nm then ps else indexGet rest nm

/-- `dir_names.add(p.name)` on a list kept duplicate-free (a set). -/
def namesAdd (nms : List Str) (nm : Str) : List Str :=
  if nm ∈ nms then nms else nms ++ [nm]

/-- `build_siumai_fixture_index(siumai_root)`: one walk of
`siumai_root/siumai/tests/fixtures`; directories contribute their base name to
`dir_names`, files are appended under their base name in `file_index`.  No
file content is read.  `fixturesRoot` is the tree at that location, or `none`
when it does not exist. -/
def build_siumai_fixture_index (siumaiRoot : FsPath) (fixturesRoot : Option FS) :
    List (Str × List FsPath) × List Str :=
  let root := siumaiRoot ++ ["siumai".data, "tests".data, "fixtures".data]
  (rglobEntries fixturesRoot).foldl
    (fun acc pe =>
      if pe.2.isDir then (acc.1, namesAdd acc.2 pe.2.name)
      else if pe.2.isFile then (indexInsert acc.1 pe.2.name (root ++ pe.1), acc.2)
      else acc)
    ([], [])

/-! ### The classifier (the loop body of `main`) -/

/-- The per-fixture verdict produced by one iteration of the loop in `main`,
together with the data the loop appends to its result lists. -/
inductive Outcome where
  | coveredByFile (si : FsPath) (hasDrift : Bool)
  | coveredByFileMulti (matching : List FsPath) (candidates : List FsPath)
  | ambiguousMatch (candidates : List FsPath)
  | coveredByCaseDir
  | missingFixture
deriving DecidableEq

/-- One iteration of the classification loop in `main`:
```
candidates = file_index.get(f.name, [])
if len(candidates) == 1: ...  # covered_by_file, drift check
if len(candidates) > 1:  ...  # covered_by_file_multi / ambiguous
normalized_case_id = normalize_case_id(f.package, f.case_id)
...                           # covered_by_case_dir / missing
``` -/
def classifyOne (hashOf : FsPath → Digest) (file_index : List (Str × List FsPath))
    (dir_names : List Str) (f : UpstreamFixture) : Outcome :=
  let candidates := indexGet file_index f.name
  if candidates.length = 1 then
    let si := candidates.headD []
    .coveredByFile si (decide (hashOf f.path ≠ hashOf si))
  else if 1 < candidates.length then
    let up_hash := hashOf f.path
    let matching := candidates.filter fun c => hashOf c = up_hash
    if matching ≠ [] then .coveredByFileMulti matching candidates
    else .ambiguousMatch candidates
  else
    let normalized_case_id := normalize_case_id f.package f.case_id
    if case_dir_exists dir_names normalized_case_id then .coveredByCaseDir
    else .missingFixture

/-- The six accumulator lists of `main`. -/
structure AuditResult where
  covered_by_file : List UpstreamFixture
  covered_by_file_multi : List (UpstreamFixture × List FsPath × List FsPath)
  covered_by_case_dir : List UpstreamFixture
  missing : List UpstreamFixture
  ambiguous : List (UpstreamFixture × List FsPath)
  drift : List (UpstreamFixture × FsPath)
deriving DecidableEq

/-- The empty accumulators. -/
def emptyAudit : AuditResult := ⟨[], [], [], [], [], []⟩

/-- Record one fixture's verdict into the accumulator lists, exactly as the
loop body appends. -/
def recordOutcome (r : AuditResult) (f : UpstreamFixture) : Outcome → AuditResult
  | .coveredByFile si hasDrift =>
    { r with covered_by_file := r.covered_by_file ++ [f]
             drift := if hasDrift then r.drift ++ [(f, si)] else r.drift }
  | .coveredByFileMulti matching candidates =>
    { r with covered_by_file_multi := r.covered_by_file_multi ++ [(f, matching, candidates)] }
  | .ambiguousMatch candidates =>
    { r with ambiguous := r.ambiguous ++ [(f, candidates)] }
  | .coveredByCaseDir =>
    { r with covered_by_case_dir := r.covered_by_case_dir ++ [f] }
  | .missingFixture =>
    { r with missing := r.missing ++ [f] }

/-- The classification loop of `main` over the (already filtered) upstream
fixture list. -/
def audit (hashOf : FsPath → Digest) (file_index : List (Str × List FsPath))
    (dir_names : List Str) (upstream : List UpstreamFixture) : AuditResult :=
  upstream.foldl (fun r f => recordOutcome r f (classifyOne hashOf file_index dir_names f))
    emptyAudit

/-- The audit pipeline of `main` after argument parsing: enumerate upstream,
drop ignored packages, build the local index, classify. -/
def runAudit (hashOf : FsPath → Digest) (aiRoot : FsPath) (packagesDir : Option FS)
    (siumaiRoot : FsPath) (fixturesRoot : Option FS) (ignore : List Str) : AuditResult :=
  let upstream := (iter_upstream_fixtures aiRoot packagesDir).filter
    fun f => f.package ∉ ignore
  let built := build_siumai_fixture_index siumaiRoot fixturesRoot
  audit hashOf built.1 built.2 upstream


/-! ### Auxiliary definitions used only to state and prove properties -/

/-- Verdicts that land in the `covered_by_file` list. -/
def Outcome.isCoveredByFile : Outcome → Bool
  | .coveredByFile _ _ => true
  | _ => false

/-- Verdicts that land in the `covered_by_case_dir` list. -/
def Outcome.isCoveredByCaseDir : Outcome → Bool
  | .coveredByCaseDir => true
  | _ => false

/-- Verdicts that land in the `missing` list. -/
def Outcome.isMissing : Outcome → Bool
  | .missingFixture => true
  | _ => false

/-- The `covered_by_file_multi` record a verdict contributes for fixture `f`. -/
def Outcome.multiEntry (f : UpstreamFixture) :
    Outcome → Option (UpstreamFixture × List FsPath × List FsPath)
  | .coveredByFileMulti matching candidates => some (f, matching, candidates)
  | _ => none

/-- The `ambiguous` record a verdict contributes for fixture `f`. -/
def Outcome.ambEntry (f : UpstreamFixture) :
    Outcome → Option (UpstreamFixture × List FsPath)
  | .ambiguousMatch candidates => some (f, candidates)
  | _ => none

/-- The `drift` record a verdict contributes for fixture `f`. -/
def Outcome.driftEntry (f : UpstreamFixture) :
    Outcome → Option (UpstreamFixture × FsPath)
  | .coveredByFile si hasDrift => if hasDrift then some (f, si) else none
  | _ => none

mutual
/-- Replace every file's content by `g` of it, leaving names and the tree
shape unchanged (used to state that index building reads no content). -/
def FS.mapContent (g : List Nat → List Nat) : FS → FS
  | .file n c => .file n (g c)
  | .dir n cs => .dir n (FS.mapContentList g cs)

/-- `FS.mapContent` on each child. -/
def FS.mapContentList (g : List Nat → List Nat) : List FS → List FS
  | [] => []
  | c :: cs => FS.mapContent g c :: FS.mapContentList g cs
end

mutual
/-- A well-formed directory tree: sibling names are distinct at every level
(as on a real filesystem). -/
def FS.wellFormed : FS → Bool
  | .file _ _ => true
  | .dir _ cs => decide ((cs.map FS.name).Nodup) && FS.wellFormedList cs

/-- All trees in the list are well-formed. -/
def FS.wellFormedList : List FS → Bool
  | [] => true
  | c :: cs => FS.wellFormed c && FS.wellFormedList cs
end

mutual
/-- Resolve a relative path inside an entry: `lookupIn e [] = e`; descending
into a directory picks the first child with the required name. -/
def FS.lookupIn : FS → FsPath → Option FS
  | e, [] => some e
  | .file _ _, _ :: _ => none
  | .dir _ cs, n :: rest => FS.lookupInList cs n rest

/-- Find the child named `n` among `cs` and resolve `rest` inside it. -/
def FS.lookupInList : List FS → Str → FsPath → Option FS
  | [], _, _ => none
  | c :: cs, n, rest =>
    if c.name = n then FS.lookupIn c rest else FS.lookupInList cs n rest
end

/-- The number of `__fixtures__`-named ancestor directories of the entry at
relative path `q` below `root` (ancestors strictly between `root` and the
entry): the number of proper nonempty prefixes of `q` that resolve to a
directory named `__fixtures__`. -/
def ancestorFixturesCount (root : FS) (q : FsPath) : Nat :=
  ((List.range q.length).filter fun i =>
    decide (0 < i) &&
      match root.lookupIn (q.take i) with
      | some (FS.dir nm _) => decide (nm = fixturesDirName)
      | _ => false).length

/-! ### Case-id extraction (C4) -/

/-- The claim's description of case-id extraction, verbatim: the
`chunks`/`txt` branch is guarded only by "the last two dot-separated segments
are exactly `chunks` then `txt`", with no requirement that any segment precede
them. -/
def case_id_claimed (name : Str) : Str :=
  let parts := splitOnChar '.' name
  if (parts.reverse.take 2).reverse = ["chunks".data, "txt".data] then
    List.intercalate ['.'] (parts.reverse.drop 2).reverse
  else if 2 ≤ parts.length then
    List.intercalate ['.'] (parts.reverse.drop 1).reverse
  else name

/-- The claim amended: the `chunks`/`txt` branch additionally requires at
least three segments (the code's `len(parts) >= 3` guard). -/
def case_id_amended (name : Str) : Str :=
  let parts := splitOnChar '.' name
  if 3 ≤ parts.length ∧ (parts.reverse.take 2).reverse = ["chunks".data, "txt".data] then
    List.intercalate ['.'] (parts.reverse.drop 2).reverse
  else if 2 ≤ parts.length then
    List.intercalate ['.'] (parts.reverse.drop 1).reverse
  else name

/-! ### Theorems -/

example : case_id_of "anthropic-json-tool.1.chunks.txt".data = "anthropic-json-tool.1".data := by decide
example : case_id_of "foo.1.json".data = "foo.1".data := by decide
example : case_id_of "README".data = "README".data := by decide
example : case_id_of "chunks.txt".data = "chunks".data := by decide
example : normalize_case_id "openai".data "openai-foo.1".data = "foo.1".data := by decide
example : normalize_case_id "anthropic".data "openai-foo.1".data = "openai-foo.1".data := by decide
example : case_dir_exists ["foo.1-json".data, "foo.1-text".data] "foo.1".data = true := by decide
example : case_dir_exists ["bar.1".data] "foo.1".data = false := by decide

/-- C4, counterexample: on the filename `chunks.txt` the last two segments are
exactly `chunks` then `txt`, so the claimed rule yields the empty case id,
but the code requires at least three segments and yields `chunks`. -/
theorem claim_C4_counterexample :
    (splitOnChar '.' "chunks.txt".data).drop ((splitOnChar '.' "chunks.txt".data).length - 2)
        = ["chunks".data, "txt".data] ∧
    case_id_claimed "chunks.txt".data = [] ∧
    case_id_of "chunks.txt".data = "chunks".data ∧
    case_id_claimed "chunks.txt".data ≠ case_id_of "chunks.txt".data := by decide

/-- C4 (amended): case-id extraction splits on `.`; when there are at least
three segments and the last two are exactly `chunks` then `txt`, the case id
is all segments before those two rejoined with `.`; otherwise with two or
more segments it is all segments except the last; a dotless filename is its
own case id.  `anthropic-json-tool.1.chunks.txt` yields
`anthropic-json-tool.1`. -/
theorem claim_C4 :
    (∀ name : Str, case_id_of name = case_id_amended name) ∧
    case_id_of "anthropic-json-tool.1.chunks.txt".data = "anthropic-json-tool.1".data := by
  constructor
  · intro name
    unfold case_id_of case_id_amended
    have h2 : ∀ l : List Str, (l.reverse.take 2).reverse = l.drop (l.length - 2) := by
      intro l; rw [List.take_reverse, List.reverse_reverse]
    have h3 : ∀ l : List Str, (l.reverse.drop 2).reverse = l.take (l.length - 2) := by
      intro l; rw [List.drop_reverse, List.reverse_reverse]
    have h4 : ∀ l : List Str, (l.reverse.drop 1).reverse = l.take (l.length - 1) := by
      intro l; rw [List.drop_reverse, List.reverse_reverse]
    simp only [h2, h3, h4, List.dropLast_eq_take]
  · decide

/-! ### Case-id normalization (C5) -/

/-- C5, counterexample to idempotence: with package `openai`, normalizing
`openai-openai-x` once gives `openai-x`, and normalizing again strips a second
prefix, giving `x`. -/
theorem claim_C5_counterexample :
    normalize_case_id "openai".data (normalize_case_id "openai".data "openai-openai-x".data) ≠
      normalize_case_id "openai".data "openai-openai-x".data ∧
    normalize_case_id "openai".data "openai-openai-x".data = "openai-x".data ∧
    normalize_case_id "openai".data "openai-x".data = "x".data := by decide

/-- C5 (amended): normalization is package-scoped — under package `openai` it
strips exactly one leading `openai-` and otherwise passes through, under
package `xai` likewise for `xai-`, and every other package passes through
unchanged — and it is idempotent except on a doubled package prefix: it fails
to be idempotent only when the package is `openai` and the case id starts
with `openai-openai-`, or the package is `xai` and the case id starts with
`xai-xai-`. -/
theorem claim_C5 :
    (∀ p c : Str, p ≠ "openai".data → p ≠ "xai".data → normalize_case_id p c = c) ∧
    (∀ c : Str, normalize_case_id "openai".data c =
      if "openai-".data.isPrefixOf c then c.drop "openai-".data.length else c) ∧
    (∀ c : Str, normalize_case_id "xai".data c =
      if "xai-".data.isPrefixOf c then c.drop "xai-".data.length else c) ∧
    (∀ p c : Str, ¬(p = "openai".data ∧ "openai-openai-".data.isPrefixOf c) →
      ¬(p = "xai".data ∧ "xai-xai-".data.isPrefixOf c) →
      normalize_case_id p (normalize_case_id p c) = normalize_case_id p c) := by
  have hne : "openai".data ≠ "xai".data := by decide
  have hopenai : ∀ c : Str, normalize_case_id "openai".data c =
      if "openai-".data.isPrefixOf c then c.drop "openai-".data.length else c := by
    intro c
    unfold normalize_case_id
    by_cases h : "openai-".data.isPrefixOf c <;> simp [h, hne]
  have hxai : ∀ c : Str, normalize_case_id "xai".data c =
      if "xai-".data.isPrefixOf c then c.drop "xai-".data.length else c := by
    intro c
    unfold normalize_case_id
    by_cases h : "xai-".data.isPrefixOf c <;> simp [h, hne]
  have hother : ∀ p c : Str, p ≠ "openai".data → p ≠ "xai".data →
      normalize_case_id p c = c := by
    intro p c h1 h2
    unfold normalize_case_id
    simp [h1, h2]
  refine ⟨hother, hopenai, hxai, ?_⟩
  intro p c hno hnx
  by_cases hp : p = "openai".data
  · subst hp
    by_cases h : "openai-".data.isPrefixOf c
    · have hpre : "openai-".data <+: c := List.isPrefixOf_iff_prefix.mp h
      obtain ⟨t, ht⟩ := hpre
      have hdrop : c.drop "openai-".data.length = t := by
        rw [← ht, List.drop_left]
      have hnt : ¬ "openai-".data.isPrefixOf t := by
        intro hcon
        obtain ⟨s, hs⟩ := List.isPrefixOf_iff_prefix.mp hcon
        apply hno
        refine ⟨rfl, List.isPrefixOf_iff_prefix.mpr ⟨s, ?_⟩⟩
        have hsplit : "openai-openai-".data = "openai-".data ++ "openai-".data := by decide
        rw [hsplit, List.append_assoc, hs, ht]
      rw [hopenai c, if_pos h, hdrop, hopenai t, if_neg hnt]
    · rw [hopenai c, if_neg h, hopenai c, if_neg h]
  · by_cases hq : p = "xai".data
    · subst hq
      by_cases h : "xai-".data.isPrefixOf c
      · have hpre : "xai-".data <+: c := List.isPrefixOf_iff_prefix.mp h
        obtain ⟨t, ht⟩ := hpre
        have hdrop : c.drop "xai-".data.length = t := by
          rw [← ht, List.drop_left]
        have hnt : ¬ "xai-".data.isPrefixOf t := by
          intro hcon
          obtain ⟨s, hs⟩ := List.isPrefixOf_iff_prefix.mp hcon
          apply hnx
          refine ⟨rfl, List.isPrefixOf_iff_prefix.mpr ⟨s, ?_⟩⟩
          have hsplit : "xai-xai-".data = "xai-".data ++ "xai-".data := by decide
          rw [hsplit, List.append_assoc, hs, ht]
        rw [hxai c, if_pos h, hdrop, hxai t, if_neg hnt]
      · rw [hxai c, if_neg h, hxai c, if_neg h]
    · rw [hother p c hp hq, hother p c hp hq]

/-- C5 witness: a wrong-package id passes through unchanged, and a singly
prefixed id is a fixed point of a second normalization. -/
theorem claim_C5_witness :
    normalize_case_id "anthropic".data "openai-foo.1".data = "openai-foo.1".data ∧
    normalize_case_id "openai".data (normalize_case_id "openai".data "openai-foo.1".data) =
      normalize_case_id "openai".data "openai-foo.1".data :=
  ⟨claim_C5.1 "anthropic".data "openai-foo.1".data (by decide) (by decide),
    claim_C5.2.2.2 "openai".data "openai-foo.1".data (by decide) (by decide)⟩

/-! ### Case-directory lookup (C6) -/

/-- C6: `case_dir_exists` holds iff the normalized case id is itself one of
the directory names, or some directory name starts with the normalized case
id followed by `-`. -/
theorem claim_C6 (dir_names : List Str) (c : Str) :
    case_dir_exists dir_names c = true ↔
      c ∈ dir_names ∨ ∃ nm ∈ dir_names, (c ++ ['-']) <+: nm := by
  unfold case_dir_exists
  by_cases h : c ∈ dir_names
  · simp [h]
  · simp [h, List.any_eq_true, List.isPrefixOf_iff_prefix]

/-! ### Characterizing the classification loop -/

/-- A verdict contributes a drift record for `f` exactly when it is a 1:1
file match with differing hashes. -/
theorem driftEntry_eq_some_iff (o : Outcome) (f g : UpstreamFixture) (p : FsPath) :
    o.driftEntry f = some (g, p) ↔ f = g ∧ o = .coveredByFile p true := by
  cases o with
  | coveredByFile si dr => cases dr <;> simp [Outcome.driftEntry, and_assoc]
  | coveredByFileMulti m c => simp [Outcome.driftEntry]
  | ambiguousMatch c => simp [Outcome.driftEntry]
  | coveredByCaseDir => simp [Outcome.driftEntry]
  | missingFixture => simp [Outcome.driftEntry]

/-- A verdict contributes a multi-match record for `f` exactly when it is
`coveredByFileMulti`. -/
theorem multiEntry_eq_some_iff (o : Outcome) (f g : UpstreamFixture)
    (m c : List FsPath) :
    o.multiEntry f = some (g, m, c) ↔ f = g ∧ o = .coveredByFileMulti m c := by
  cases o <;> simp [Outcome.multiEntry, and_assoc]

/-- A verdict contributes an ambiguous record for `f` exactly when it is
`ambiguousMatch`. -/
theorem ambEntry_eq_some_iff (o : Outcome) (f g : UpstreamFixture) (c : List FsPath) :
    o.ambEntry f = some (g, c) ↔ f = g ∧ o = .ambiguousMatch c := by
  cases o <;> simp [Outcome.ambEntry, and_assoc]

/-- Unrolling the classification loop from an arbitrary accumulator: every
result list is the corresponding filter / extraction over the input. -/
theorem auditLoop_eq (hashOf : FsPath → Digest) (idx : List (Str × List FsPath))
    (dirs : List Str) (fs : List UpstreamFixture) :
    ∀ r : AuditResult,
      fs.foldl (fun r f => recordOutcome r f (classifyOne hashOf idx dirs f)) r =
      { covered_by_file := r.covered_by_file ++
          fs.filter fun f => (classifyOne hashOf idx dirs f).isCoveredByFile
        covered_by_file_multi := r.covered_by_file_multi ++
          fs.filterMap fun f => (classifyOne hashOf idx dirs f).multiEntry f
        covered_by_case_dir := r.covered_by_case_dir ++
          fs.filter fun f => (classifyOne hashOf idx dirs f).isCoveredByCaseDir
        missing := r.missing ++
          fs.filter fun f => (classifyOne hashOf idx dirs f).isMissing
        ambiguous := r.ambiguous ++
          fs.filterMap fun f => (classifyOne hashOf idx dirs f).ambEntry f
        drift := r.drift ++
          fs.filterMap fun f => (classifyOne hashOf idx dirs f).driftEntry f } := by
  induction fs with
  | nil => intro r; simp
  | cons f fs ih =>
    intro r
    rw [List.foldl_cons, ih]
    cases hcl : classifyOne hashOf idx dirs f with
    | coveredByFile si dr =>
      cases dr <;>
        simp [recordOutcome, hcl, Outcome.isCoveredByFile, Outcome.isCoveredByCaseDir,
          Outcome.isMissing, Outcome.multiEntry, Outcome.ambEntry, Outcome.driftEntry,
          List.filter_cons, List.filterMap_cons]
    | coveredByFileMulti m c =>
      simp [recordOutcome, hcl, Outcome.isCoveredByFile, Outcome.isCoveredByCaseDir,
        Outcome.isMissing, Outcome.multiEntry, Outcome.ambEntry, Outcome.driftEntry,
        List.filter_cons, List.filterMap_cons]
    | ambiguousMatch c =>
      simp [recordOutcome, hcl, Outcome.isCoveredByFile, Outcome.isCoveredByCaseDir,
        Outcome.isMissing, Outcome.multiEntry, Outcome.ambEntry, Outcome.driftEntry,
        List.filter_cons, List.filterMap_cons]
    | coveredByCaseDir =>
      simp [recordOutcome, hcl, Outcome.isCoveredByFile, Outcome.isCoveredByCaseDir,
        Outcome.isMissing, Outcome.multiEntry, Outcome.ambEntry, Outcome.driftEntry,
        List.filter_cons, List.filterMap_cons]
    | missingFixture =>
      simp [recordOutcome, hcl, Outcome.isCoveredByFile, Outcome.isCoveredByCaseDir,
        Outcome.isMissing, Outcome.multiEntry, Outcome.ambEntry, Outcome.driftEntry,
        List.filter_cons, List.filterMap_cons]

/-- The six result lists of `audit`, as filters / extractions of the input. -/
theorem audit_spec (hashOf : FsPath → Digest) (idx : List (Str × List FsPath))
    (dirs : List Str) (fs : List UpstreamFixture) :
    audit hashOf idx dirs fs =
      { covered_by_file := fs.filter fun f => (classifyOne hashOf idx dirs f).isCoveredByFile
        covered_by_file_multi :=
          fs.filterMap fun f => (classifyOne hashOf idx dirs f).multiEntry f
        covered_by_case_dir :=
          fs.filter fun f => (classifyOne hashOf idx dirs f).isCoveredByCaseDir
        missing := fs.filter fun f => (classifyOne hashOf idx dirs f).isMissing
        ambiguous := fs.filterMap fun f => (classifyOne hashOf idx dirs f).ambEntry f
        drift := fs.filterMap fun f => (classifyOne hashOf idx dirs f).driftEntry f } := by
  rw [audit, auditLoop_eq]
  simp [emptyAudit]

/-- With exactly one candidate, the loop body classifies `covered_by_file`
and records drift iff the two hashes differ. -/
theorem classifyOne_single (hashOf : FsPath → Digest) (idx : List (Str × List FsPath))
    (dirs : List Str) (f : UpstreamFixture) (si : FsPath)
    (hc : indexGet idx f.name = [si]) :
    classifyOne hashOf idx dirs f =
      .coveredByFile si (decide (hashOf f.path ≠ hashOf si)) := by
  unfold classifyOne
  simp [hc]

/-- With two or more candidates, the loop body filters the candidates by hash
agreement and classifies multi-match or ambiguous. -/
theorem classifyOne_multi (hashOf : FsPath → Digest) (idx : List (Str × List FsPath))
    (dirs : List Str) (f : UpstreamFixture)
    (hlen : 1 < (indexGet idx f.name).length) :
    classifyOne hashOf idx dirs f =
      (if (indexGet idx f.name).filter (fun c => hashOf c = hashOf f.path) ≠ [] then
        .coveredByFileMulti
          ((indexGet idx f.name).filter fun c => hashOf c = hashOf f.path)
          (indexGet idx f.name)
      else .ambiguousMatch (indexGet idx f.name)) := by
  have h1 : ¬ (indexGet idx f.name).length = 1 := by omega
  unfold classifyOne
  simp [h1, hlen]

/-- With no candidate, the loop body consults the normalized case id and the
directory-name set. -/
theorem classifyOne_zero (hashOf : FsPath → Digest) (idx : List (Str × List FsPath))
    (dirs : List Str) (f : UpstreamFixture) (hc : indexGet idx f.name = []) :
    classifyOne hashOf idx dirs f =
      (if case_dir_exists dirs (normalize_case_id f.package f.case_id) then
        .coveredByCaseDir
      else .missingFixture) := by
  unfold classifyOne
  simp [hc]

/-! ### Claims about the classifier (C1, C2, C3) -/

/-- C1: a fixture whose filename has exactly one candidate in `file_index` is
classified `covered_by_file`; the drift pair (fixture, sole candidate) is
recorded iff the two SHA-256 digests differ; the classification is
`covered_by_file` whether or not drift is recorded; and every drift record
belongs to a `covered_by_file` fixture. -/
theorem claim_C1 (hashOf : FsPath → Digest) (idx : List (Str × List FsPath))
    (dirs : List Str) (fs : List UpstreamFixture) (f : UpstreamFixture) (si : FsPath)
    (hf : f ∈ fs) (hc : indexGet idx f.name = [si]) :
    f ∈ (audit hashOf idx dirs fs).covered_by_file ∧
    ((f, si) ∈ (audit hashOf idx dirs fs).drift ↔ hashOf f.path ≠ hashOf si) ∧
    (∀ g p, (g, p) ∈ (audit hashOf idx dirs fs).drift →
      g ∈ (audit hashOf idx dirs fs).covered_by_file) := by
  rw [audit_spec]
  refine ⟨?_, ?_, ?_⟩
  · rw [List.mem_filter]
    exact ⟨hf, by rw [classifyOne_single hashOf idx dirs f si hc]; rfl⟩
  · rw [List.mem_filterMap]
    constructor
    · rintro ⟨g, hg, hge⟩
      rw [driftEntry_eq_some_iff] at hge
      obtain ⟨hgf, hcl⟩ := hge
      subst hgf
      rw [classifyOne_single hashOf idx dirs g si hc] at hcl
      have : decide (hashOf g.path ≠ hashOf si) = true := (Outcome.coveredByFile.injEq _ _ _ _).mp hcl |>.2
      exact of_decide_eq_true this
    · intro hne
      refine ⟨f, hf, ?_⟩
      rw [driftEntry_eq_some_iff]
      exact ⟨rfl, by rw [classifyOne_single hashOf idx dirs f si hc]; simp [hne]⟩
  · intro g p hmem
    rw [List.mem_filterMap] at hmem
    obtain ⟨g', hg', hge⟩ := hmem
    rw [driftEntry_eq_some_iff] at hge
    obtain ⟨hgf, hcl⟩ := hge
    subst hgf
    rw [List.mem_filter]
    exact ⟨hg', by rw [hcl]; rfl⟩

/-- C1 witness: a concrete one-candidate index with differing digests. -/
theorem claim_C1_witness :
    (UpstreamFixture.mk "p".data ["up".data, "a.json".data] ∈
        [UpstreamFixture.mk "p".data ["up".data, "a.json".data]] ∧
      indexGet [("a.json".data, [["si".data, "a.json".data]])]
        (UpstreamFixture.mk "p".data ["up".data, "a.json".data]).name
        = [["si".data, "a.json".data]]) ∧
    (UpstreamFixture.mk "p".data ["up".data, "a.json".data] ∈
      (audit pathStr [("a.json".data, [["si".data, "a.json".data]])] []
        [UpstreamFixture.mk "p".data ["up".data, "a.json".data]]).covered_by_file ∧
    ((UpstreamFixture.mk "p".data ["up".data, "a.json".data], ["si".data, "a.json".data]) ∈
      (audit pathStr [("a.json".data, [["si".data, "a.json".data]])] []
        [UpstreamFixture.mk "p".data ["up".data, "a.json".data]]).drift ↔
      pathStr ["up".data, "a.json".data] ≠ pathStr ["si".data, "a.json".data]) ∧
    (∀ g p, (g, p) ∈
      (audit pathStr [("a.json".data, [["si".data, "a.json".data]])] []
        [UpstreamFixture.mk "p".data ["up".data, "a.json".data]]).drift →
      g ∈ (audit pathStr [("a.json".data, [["si".data, "a.json".data]])] []
        [UpstreamFixture.mk "p".data ["up".data, "a.json".data]]).covered_by_file)) :=
  ⟨⟨by decide, by decide⟩,
    claim_C1 pathStr [("a.json".data, [["si".data, "a.json".data]])] []
      [UpstreamFixture.mk "p".data ["up".data, "a.json".data]]
      (UpstreamFixture.mk "p".data ["up".data, "a.json".data]) ["si".data, "a.json".data]
      (by decide) (by decide)⟩

/-- C2: with two or more same-named candidates, the candidates whose hash
equals the upstream hash form the `matching` sublist; if some candidate
matches, the fixture is classified `covered_by_file_multi` retaining the
matching list and the full candidate list; if none matches it is classified
`ambiguous` retaining all candidates. -/
theorem claim_C2 (hashOf : FsPath → Digest) (idx : List (Str × List FsPath))
    (dirs : List Str) (fs : List UpstreamFixture) (f : UpstreamFixture)
    (hf : f ∈ fs) (hlen : 2 ≤ (indexGet idx f.name).length) :
    (∀ c, c ∈ (indexGet idx f.name).filter (fun c => hashOf c = hashOf f.path) ↔
      c ∈ indexGet idx f.name ∧ hashOf c = hashOf f.path) ∧
    ((indexGet idx f.name).filter (fun c => hashOf c = hashOf f.path) ≠ [] →
      (f, (indexGet idx f.name).filter (fun c => hashOf c = hashOf f.path),
        indexGet idx f.name) ∈ (audit hashOf idx dirs fs).covered_by_file_multi) ∧
    ((indexGet idx f.name).filter (fun c => hashOf c = hashOf f.path) = [] →
      (f, indexGet idx f.name) ∈ (audit hashOf idx dirs fs).ambiguous) := by
  have hlen1 : 1 < (indexGet idx f.name).length := hlen
  refine ⟨?_, ?_, ?_⟩
  · intro c
    rw [List.mem_filter]
    simp
  · intro hne
    rw [audit_spec, List.mem_filterMap]
    refine ⟨f, hf, ?_⟩
    rw [multiEntry_eq_some_iff]
    exact ⟨rfl, by rw [classifyOne_multi hashOf idx dirs f hlen1, if_pos hne]⟩
  · intro hempty
    rw [audit_spec, List.mem_filterMap]
    refine ⟨f, hf, ?_⟩
    rw [ambEntry_eq_some_iff]
    refine ⟨rfl, ?_⟩
    rw [classifyOne_multi hashOf idx dirs f hlen1, if_neg (by simp [hempty])]

/-- C2 witness: one upstream file, two same-named local files, exactly one
hash-identical candidate. -/
theorem claim_C2_witness :
    (UpstreamFixture.mk "p".data ["a".data] ∈ [UpstreamFixture.mk "p".data ["a".data]] ∧
      2 ≤ (indexGet [("a".data, [["a".data], ["b".data]])]
        (UpstreamFixture.mk "p".data ["a".data]).name).length) ∧
    ((indexGet [("a".data, [["a".data], ["b".data]])]
        (UpstreamFixture.mk "p".data ["a".data]).name).filter
        (fun c => pathStr c = pathStr (UpstreamFixture.mk "p".data ["a".data]).path) ≠ [] →
      (UpstreamFixture.mk "p".data ["a".data],
        (indexGet [("a".data, [["a".data], ["b".data]])]
          (UpstreamFixture.mk "p".data ["a".data]).name).filter
          (fun c => pathStr c = pathStr (UpstreamFixture.mk "p".data ["a".data]).path),
        indexGet [("a".data, [["a".data], ["b".data]])]
          (UpstreamFixture.mk "p".data ["a".data]).name) ∈
        (audit pathStr [("a".data, [["a".data], ["b".data]])] []
          [UpstreamFixture.mk "p".data ["a".data]]).covered_by_file_multi) :=
  ⟨⟨by decide, by decide⟩,
    (claim_C2 pathStr [("a".data, [["a".data], ["b".data]])] []
      [UpstreamFixture.mk "p".data ["a".data]] (UpstreamFixture.mk "p".data ["a".data])
      (by decide) (by decide)).2.1⟩

/-- Every fixture lands in exactly one of the five buckets, so the bucket
sizes sum to the number of fixtures processed. -/
theorem classify_partition_count (hashOf : FsPath → Digest)
    (idx : List (Str × List FsPath)) (dirs : List Str) (fs : List UpstreamFixture) :
    (fs.filter fun f => (classifyOne hashOf idx dirs f).isCoveredByFile).length +
    (fs.filterMap fun f => (classifyOne hashOf idx dirs f).multiEntry f).length +
    (fs.filter fun f => (classifyOne hashOf idx dirs f).isCoveredByCaseDir).length +
    (fs.filterMap fun f => (classifyOne hashOf idx dirs f).ambEntry f).length +
    (fs.filter fun f => (classifyOne hashOf idx dirs f).isMissing).length = fs.length := by
  induction fs with
  | nil => simp
  | cons f fs ih =>
    cases hcl : classifyOne hashOf idx dirs f <;>
      simp [List.filter_cons, List.filterMap_cons, hcl, Outcome.isCoveredByFile,
        Outcome.multiEntry, Outcome.isCoveredByCaseDir, Outcome.ambEntry,
        Outcome.isMissing] at ih ⊢ <;> omega

/-- C3: after dropping ignored packages, every fixture receives one of the
five classifications — the five bucket counts sum to the upstream total, and
each fixture appears in one of the buckets — and a fixture with zero filename
candidates is classified `covered_by_case_dir` when `case_dir_exists` holds
for its normalized case id, `missing` otherwise. -/
theorem claim_C3 (hashOf : FsPath → Digest) (idx : List (Str × List FsPath))
    (dirs : List Str) (ignore : List Str) (fs : List UpstreamFixture) :
    (audit hashOf idx dirs (fs.filter fun f => f.package ∉ ignore)).covered_by_file.length +
      (audit hashOf idx dirs (fs.filter fun f => f.package ∉ ignore)).covered_by_file_multi.length +
      (audit hashOf idx dirs (fs.filter fun f => f.package ∉ ignore)).covered_by_case_dir.length +
      (audit hashOf idx dirs (fs.filter fun f => f.package ∉ ignore)).ambiguous.length +
      (audit hashOf idx dirs (fs.filter fun f => f.package ∉ ignore)).missing.length =
      (fs.filter fun f => f.package ∉ ignore).length ∧
    (∀ f ∈ fs.filter fun f => f.package ∉ ignore,
      f ∈ (audit hashOf idx dirs (fs.filter fun f => f.package ∉ ignore)).covered_by_file ∨
      (∃ m c, (f, m, c) ∈
        (audit hashOf idx dirs (fs.filter fun f => f.package ∉ ignore)).covered_by_file_multi) ∨
      f ∈ (audit hashOf idx dirs (fs.filter fun f => f.package ∉ ignore)).covered_by_case_dir ∨
      (∃ c, (f, c) ∈ (audit hashOf idx dirs (fs.filter fun f => f.package ∉ ignore)).ambiguous) ∨
      f ∈ (audit hashOf idx dirs (fs.filter fun f => f.package ∉ ignore)).missing) ∧
    (∀ f ∈ fs.filter fun f => f.package ∉ ignore, indexGet idx f.name = [] →
      (case_dir_exists dirs (normalize_case_id f.package f.case_id) = true →
        f ∈ (audit hashOf idx dirs (fs.filter fun f => f.package ∉ ignore)).covered_by_case_dir) ∧
      (case_dir_exists dirs (normalize_case_id f.package f.case_id) = false →
        f ∈ (audit hashOf idx dirs (fs.filter fun f => f.package ∉ ignore)).missing)) := by
  rw [audit_spec]
  refine ⟨classify_partition_count hashOf idx dirs _, ?_, ?_⟩
  · intro f hf
    cases hcl : classifyOne hashOf idx dirs f with
    | coveredByFile si dr =>
      exact Or.inl (List.mem_filter.mpr ⟨hf, by rw [hcl]; rfl⟩)
    | coveredByFileMulti m c =>
      refine Or.inr (Or.inl ⟨m, c, List.mem_filterMap.mpr ⟨f, hf, ?_⟩⟩)
      rw [multiEntry_eq_some_iff]
      exact ⟨rfl, hcl⟩
    | ambiguousMatch c =>
      refine Or.inr (Or.inr (Or.inr (Or.inl ⟨c, List.mem_filterMap.mpr ⟨f, hf, ?_⟩⟩)))
      rw [ambEntry_eq_some_iff]
      exact ⟨rfl, hcl⟩
    | coveredByCaseDir =>
      exact Or.inr (Or.inr (Or.inl (List.mem_filter.mpr ⟨hf, by rw [hcl]; rfl⟩)))
    | missingFixture =>
      exact Or.inr (Or.inr (Or.inr (Or.inr (List.mem_filter.mpr ⟨hf, by rw [hcl]; rfl⟩))))
  · intro f hf hzero
    constructor
    · intro hdir
      refine List.mem_filter.mpr ⟨hf, ?_⟩
      rw [classifyOne_zero hashOf idx dirs f hzero, if_pos hdir]
      rfl
    · intro hdir
      refine List.mem_filter.mpr ⟨hf, ?_⟩
      rw [classifyOne_zero hashOf idx dirs f hzero, if_neg (by simp [hdir])]
      rfl

/-- C3 witness: a two-fixture run (one with a candidate, one without) with an
ignored package dropped. -/
theorem claim_C3_witness :
    (audit pathStr [("a".data, [["a".data]])] ["b".data]
        ([UpstreamFixture.mk "p".data ["a".data],
          UpstreamFixture.mk "q".data ["b.txt".data],
          UpstreamFixture.mk "langchain".data ["c".data]].filter
          fun f => f.package ∉ ["langchain".data])).covered_by_file.length +
      (audit pathStr [("a".data, [["a".data]])] ["b".data]
        ([UpstreamFixture.mk "p".data ["a".data],
          UpstreamFixture.mk "q".data ["b.txt".data],
          UpstreamFixture.mk "langchain".data ["c".data]].filter
          fun f => f.package ∉ ["langchain".data])).covered_by_file_multi.length +
      (audit pathStr [("a".data, [["a".data]])] ["b".data]
        ([UpstreamFixture.mk "p".data ["a".data],
          UpstreamFixture.mk "q".data ["b.txt".data],
          UpstreamFixture.mk "langchain".data ["c".data]].filter
          fun f => f.package ∉ ["langchain".data])).covered_by_case_dir.length +
      (audit pathStr [("a".data, [["a".data]])] ["b".data]
        ([UpstreamFixture.mk "p".data ["a".data],
          UpstreamFixture.mk "q".data ["b.txt".data],
          UpstreamFixture.mk "langchain".data ["c".data]].filter
          fun f => f.package ∉ ["langchain".data])).ambiguous.length +
      (audit pathStr [("a".data, [["a".data]])] ["b".data]
        ([UpstreamFixture.mk "p".data ["a".data],
          UpstreamFixture.mk "q".data ["b.txt".data],
          UpstreamFixture.mk "langchain".data ["c".data]].filter
          fun f => f.package ∉ ["langchain".data])).missing.length =
      ([UpstreamFixture.mk "p".data ["a".data],
        UpstreamFixture.mk "q".data ["b.txt".data],
        UpstreamFixture.mk "langchain".data ["c".data]].filter
        fun f => f.package ∉ ["langchain".data]).length :=
  (claim_C3 pathStr [("a".data, [["a".data]])] ["b".data] ["langchain".data]
    [UpstreamFixture.mk "p".data ["a".data],
      UpstreamFixture.mk "q".data ["b.txt".data],
      UpstreamFixture.mk "langchain".data ["c".data]]).1

/-! ### Missing roots and laziness (C8, C9) -/

/-- `FS.mapContent` changes no entry name. -/
theorem FS.name_mapContent (g : List Nat → List Nat) (t : FS) :
    (FS.mapContent g t).name = t.name := by
  cases t <;> rfl

mutual
/-- Rewriting file contents does not change the entries a walk discovers,
beyond rewriting the contents of the entries themselves. -/
theorem FS.entriesUnder_mapContent (g : List Nat → List Nat) :
    ∀ t : FS, (FS.mapContent g t).entriesUnder =
      t.entriesUnder.map fun pe => (pe.1, FS.mapContent g pe.2)
  | .file n c => by
    simp [FS.mapContent, FS.entriesUnder]
  | .dir n cs => by
    simp only [FS.mapContent, FS.entriesUnder]
    exact FS.entriesUnderList_mapContent g cs

/-- The list version of `FS.entriesUnder_mapContent`. -/
theorem FS.entriesUnderList_mapContent (g : List Nat → List Nat) :
    ∀ cs : List FS, FS.entriesUnderList (FS.mapContentList g cs) =
      (FS.entriesUnderList cs).map fun pe => (pe.1, FS.mapContent g pe.2)
  | [] => by simp [FS.mapContentList, FS.entriesUnderList]
  | c :: cs => by
    simp only [FS.mapContentList, FS.entriesUnderList, List.map_cons, List.map_append,
      List.map_map]
    rw [FS.entriesUnder_mapContent g c, FS.entriesUnderList_mapContent g cs,
      FS.name_mapContent g c]
    simp [List.map_map, Function.comp_def]
end

/-- C8: a nonexistent upstream root yields an empty fixture list, a
nonexistent local fixtures root yields an empty index and empty directory-name
set, and a run with both the index and the directory names empty classifies
every fixture `missing` (and nothing else). -/
theorem claim_C8 :
    (∀ aiRoot : FsPath, iter_upstream_fixtures aiRoot none = []) ∧
    (∀ siumaiRoot : FsPath, build_siumai_fixture_index siumaiRoot none = ([], [])) ∧
    (∀ (hashOf : FsPath → Digest) (fs : List UpstreamFixture),
      (audit hashOf [] [] fs).missing = fs ∧
      (audit hashOf [] [] fs).covered_by_file = [] ∧
      (audit hashOf [] [] fs).covered_by_file_multi = [] ∧
      (audit hashOf [] [] fs).covered_by_case_dir = [] ∧
      (audit hashOf [] [] fs).ambiguous = [] ∧
      (audit hashOf [] [] fs).drift = []) := by
  have hcl : ∀ (hashOf : FsPath → Digest) (f : UpstreamFixture),
      classifyOne hashOf [] [] f = .missingFixture := by
    intro hashOf f
    rw [classifyOne_zero hashOf [] [] f rfl]
    have : case_dir_exists [] (normalize_case_id f.package f.case_id) = false := rfl
    rw [this]
    simp
  refine ⟨fun aiRoot => ?_, fun siumaiRoot => rfl, fun hashOf fs => ?_⟩
  · simp [iter_upstream_fixtures, rglobEntries]
  rw [audit_spec]
  refine ⟨?_, ?_, ?_, ?_, ?_, ?_⟩ <;>
    simp [hcl, Outcome.isMissing, Outcome.isCoveredByFile, Outcome.isCoveredByCaseDir,
      Outcome.multiEntry, Outcome.ambEntry, Outcome.driftEntry]

/-- C9: hashing is lazy — building the local index reads no file content
(rewriting every file's bytes leaves the built index unchanged), a fixture
with zero same-name candidates is classified from names alone
(`covered_by_case_dir` or `missing`), and its classification is the same
under any two hash oracles, i.e. no file is hashed for it. -/
theorem claim_C9 :
    (∀ (siumaiRoot : FsPath) (g : List Nat → List Nat) (t : FS),
      build_siumai_fixture_index siumaiRoot (some (FS.mapContent g t)) =
        build_siumai_fixture_index siumaiRoot (some t)) ∧
    (∀ (hashOf : FsPath → Digest) (idx : List (Str × List FsPath)) (dirs : List Str)
        (f : UpstreamFixture), indexGet idx f.name = [] →
      classifyOne hashOf idx dirs f = .coveredByCaseDir ∨
        classifyOne hashOf idx dirs f = .missingFixture) ∧
    (∀ (h1 h2 : FsPath → Digest) (idx : List (Str × List FsPath)) (dirs : List Str)
        (f : UpstreamFixture), indexGet idx f.name = [] →
      classifyOne h1 idx dirs f = classifyOne h2 idx dirs f) := by
  refine ⟨?_, ?_, ?_⟩
  · intro siumaiRoot g t
    simp only [build_siumai_fixture_index, rglobEntries]
    rw [FS.entriesUnder_mapContent, List.foldl_map]
    congr 1
    funext acc pe
    obtain ⟨p, e⟩ := pe
    cases e <;> rfl
  · intro hashOf idx dirs f hzero
    rw [classifyOne_zero hashOf idx dirs f hzero]
    by_cases hdir : case_dir_exists dirs (normalize_case_id f.package f.case_id) <;>
      simp [hdir]
  · intro h1 h2 idx dirs f hzero
    rw [classifyOne_zero h1 idx dirs f hzero, classifyOne_zero h2 idx dirs f hzero]

/-- C9 witness: a concrete tree whose file bytes are rewritten, and a
zero-candidate fixture classified identically under two different oracles. -/
theorem claim_C9_witness :
    build_siumai_fixture_index ["r".data]
        (some (FS.mapContent (fun c => 0 :: c)
          (FS.dir "fixtures".data [FS.file "a".data [1, 2], FS.dir "d".data []]))) =
      build_siumai_fixture_index ["r".data]
        (some (FS.dir "fixtures".data [FS.file "a".data [1, 2], FS.dir "d".data []])) ∧
    (indexGet [] (UpstreamFixture.mk "p".data ["x".data]).name = [] ∧
      classifyOne pathStr [] ["q".data] (UpstreamFixture.mk "p".data ["x".data]) =
        classifyOne (fun _ => []) [] ["q".data] (UpstreamFixture.mk "p".data ["x".data])) :=
  ⟨claim_C9.1 ["r".data] (fun c => 0 :: c)
      (FS.dir "fixtures".data [FS.file "a".data [1, 2], FS.dir "d".data []]),
    by decide,
    claim_C9.2.2 pathStr (fun _ => []) [] ["q".data]
      (UpstreamFixture.mk "p".data ["x".data]) (by decide)⟩

/-! ### The upstream enumerator (C7) -/

/-- Every entry discovered by a walk has a nonempty relative path. -/
theorem entriesUnderList_path_ne_nil (cs : List FS) :
    ∀ pe ∈ FS.entriesUnderList cs, pe.1 ≠ [] := by
  induction cs with
  | nil => intro pe hpe; simp [FS.entriesUnderList] at hpe
  | cons c cs ih =>
    intro pe hpe
    rw [FS.entriesUnderList.eq_2] at hpe
    simp only [List.mem_cons, List.mem_append, List.mem_map] at hpe
    rcases hpe with (h | ⟨qe, hq1, hq⟩) | h
    · subst h; simp
    · rw [← hq]
      simp
    · exact ih pe h

/-- C7: the enumerator's output is sorted by the path rendered as a string,
and every enumerated fixture's `package` is the first component of the path
of its `__fixtures__` directory relative to the packages root (that relative
path is always computable and nonempty here, so the `unknown` fallback is
never taken); the fixture's path is the fixtures directory's path extended by
the file's path inside it. -/
theorem claim_C7 (aiRoot : FsPath) (packagesDir : Option FS) :
    (iter_upstream_fixtures aiRoot packagesDir).Pairwise
      (fun a b => pathStr a.path ≤ pathStr b.path) ∧
    ∀ f ∈ iter_upstream_fixtures aiRoot packagesDir,
      ∃ dpe ∈ rglobEntries packagesDir, dpe.2.name = fixturesDirName ∧
        dpe.2.isDir = true ∧
        (∃ pkg rest, dpe.1 = pkg :: rest ∧ f.package = pkg) ∧
        ∃ fpe ∈ dpe.2.entriesUnder, fpe.2.isFile = true ∧
          f.path = aiRoot ++ ["packages".data] ++ dpe.1 ++ fpe.1 := by
  constructor
  · simp only [iter_upstream_fixtures]
    have hs := @List.sorted_mergeSort UpstreamFixture
      (fun a b : UpstreamFixture => decide (pathStr a.path ≤ pathStr b.path))
      (fun a b c hab hbc =>
        decide_eq_true (le_trans (of_decide_eq_true hab) (of_decide_eq_true hbc)))
      (fun a b => by
        rcases le_total (pathStr a.path) (pathStr b.path) with h | h <;> simp [h])
      ((rglobEntries packagesDir).flatMap fun dpe =>
        if dpe.2.name = fixturesDirName ∧ dpe.2.isDir then
          ((dpe.2.entriesUnder).filter fun fpe => fpe.2.isFile).map fun fpe =>
            { package := packageOf dpe.1
              path := aiRoot ++ ["packages".data] ++ dpe.1 ++ fpe.1 }
        else [])
    exact hs.imp fun h => of_decide_eq_true h
  · intro f hf
    simp only [iter_upstream_fixtures] at hf
    rw [(List.mergeSort_perm _ _).mem_iff, List.mem_flatMap] at hf
    obtain ⟨dpe, hdpe, hfin⟩ := hf
    by_cases hc : dpe.2.name = fixturesDirName ∧ dpe.2.isDir
    · rw [if_pos hc, List.mem_map] at hfin
      obtain ⟨fpe, hfpe, hfeq⟩ := hfin
      rw [List.mem_filter] at hfpe
      refine ⟨dpe, hdpe, hc.1, hc.2, ?_, fpe, hfpe.1, hfpe.2, by rw [← hfeq]⟩
      have hne : dpe.1 ≠ [] := by
        cases packagesDir with
        | none => simp [rglobEntries] at hdpe
        | some t =>
          cases t with
          | file n c => simp [rglobEntries, FS.entriesUnder] at hdpe
          | dir n cs =>
            exact entriesUnderList_path_ne_nil cs dpe
              (by simpa [rglobEntries, FS.entriesUnder] using hdpe)
      cases hdp : dpe.1 with
      | nil => exact absurd hdp hne
      | cons pkg rest =>
        refine ⟨pkg, rest, rfl, ?_⟩
        rw [← hfeq]
        show packageOf dpe.1 = pkg
        rw [hdp]
        rfl
    · rw [if_neg hc] at hfin
      simp at hfin

/-- C7 witness: a concrete two-package tree, checking the sorted output and
the package attribution of one enumerated fixture. -/
theorem claim_C7_witness :
    (UpstreamFixture.mk "p".data
        ["ai".data, "packages".data, "p".data, "__fixtures__".data, "a.txt".data] ∈
      iter_upstream_fixtures ["ai".data]
        (some (FS.dir "packages".data
          [FS.dir "p".data [FS.dir "__fixtures__".data [FS.file "a.txt".data []]]]))) ∧
    (∃ dpe ∈ rglobEntries
        (some (FS.dir "packages".data
          [FS.dir "p".data [FS.dir "__fixtures__".data [FS.file "a.txt".data []]]])),
      dpe.2.name = fixturesDirName ∧ dpe.2.isDir = true ∧
      (∃ pkg rest, dpe.1 = pkg :: rest ∧
        (UpstreamFixture.mk "p".data
          ["ai".data, "packages".data, "p".data, "__fixtures__".data, "a.txt".data]).package
          = pkg) ∧
      ∃ fpe ∈ dpe.2.entriesUnder, fpe.2.isFile = true ∧
        (UpstreamFixture.mk "p".data
          ["ai".data, "packages".data, "p".data, "__fixtures__".data, "a.txt".data]).path
          = ["ai".data] ++ ["packages".data] ++ dpe.1 ++ fpe.1) :=
  ⟨by
      simp only [iter_upstream_fixtures]
      rw [(List.mergeSort_perm _ _).mem_iff]
      decide,
    (claim_C7 ["ai".data]
      (some (FS.dir "packages".data
        [FS.dir "p".data [FS.dir "__fixtures__".data [FS.file "a.txt".data []]]]))).2
      (UpstreamFixture.mk "p".data
        ["ai".data, "packages".data, "p".data, "__fixtures__".data, "a.txt".data])
      (by
        simp only [iter_upstream_fixtures]
        rw [(List.mergeSort_perm _ _).mem_iff]
        decide)⟩

/-! ### Counting entries in a well-formed tree (toward C10) -/

/-- Sums distribute over pointwise addition under `map`. -/
theorem sum_map_add {α : Type} (l : List α) (f g : α → Nat) :
    (l.map fun a => f a + g a).sum = (l.map f).sum + (l.map g).sum := by
  induction l with
  | nil => rfl
  | cons x l ih => simp only [List.map_cons, List.sum_cons, ih]; omega

/-- Summing an indicator function counts the satisfying elements. -/
theorem sum_indicator_eq_countP {α : Type} (l : List α) (p : α → Bool) :
    (l.map fun a => if p a then 1 else 0).sum = l.countP p := by
  induction l with
  | nil => rfl
  | cons x l ih =>
    by_cases h : p x <;>
      · simp only [List.map_cons, List.sum_cons, ih, List.countP_cons, h]
        simp
        try omega

/-- A predicate on `range n` with a unique witness counts exactly one. -/
theorem countP_range_of_unique (n j : Nat) (R : Nat → Bool) (hj : j < n)
    (hR : R j = true) (huniq : ∀ i, i < n → R i = true → i = j) :
    (List.range n).countP R = 1 := by
  induction n with
  | zero => omega
  | succ n ih =>
    rw [List.range_succ, List.countP_append]
    by_cases hjn : j = n
    · have h0 : (List.range n).countP R = 0 := List.countP_eq_zero.mpr (by
        intro i hi hRi
        rw [List.mem_range] at hi
        have := huniq i (by omega) hRi
        omega)
      have hRn : R n = true := by rw [← hjn]; exact hR
      simp [h0, hRn]
    · have hRn : ¬ R n = true := fun h => hjn ((huniq n (by omega) h)).symm
      have hjn' : j < n := by omega
      rw [ih hjn' fun i hi hRi => huniq i (by omega) hRi]
      simp [hRn]

/-- Counting a predicate that splits as a disjoint union over indices
`i < n` equals the sum of the per-index counts. -/
theorem countP_eq_sum_range {α : Type} (L : List α) (P : α → Bool)
    (Q : Nat → α → Bool) (n : Nat)
    (hiff : ∀ x, P x = true ↔ ∃ i, i < n ∧ Q i x = true)
    (huniq : ∀ i j x, i < n → j < n → Q i x = true → Q j x = true → i = j) :
    L.countP P = ((List.range n).map fun i => L.countP (Q i)).sum := by
  induction L with
  | nil => simp
  | cons x L ih =>
    rw [List.countP_cons]
    have hsplit : ((List.range n).map fun i => List.countP (Q i) (x :: L)).sum
        = ((List.range n).map fun i => List.countP (Q i) L).sum
          + ((List.range n).map fun i => if Q i x then 1 else 0).sum := by
      rw [← sum_map_add]
      congr 1
      apply List.map_congr_left
      intro i hi
      rw [List.countP_cons]
    rw [hsplit, ← ih]
    congr 1
    rw [sum_indicator_eq_countP]
    by_cases hP : P x = true
    · obtain ⟨j, hj, hQ⟩ := (hiff x).mp hP
      rw [countP_range_of_unique n j (fun i => Q i x) hj hQ
        fun i hi hQi => huniq i j x hi hj hQi hQ]
      simp [hP]
    · have hall : ∀ i ∈ List.range n, ¬ Q i x = true := fun i hi hQi =>
        hP ((hiff x).mpr ⟨i, List.mem_range.mp hi, hQi⟩)
      rw [List.countP_eq_zero.mpr hall]
      simp [hP]

/-- The first component of a discovered entry's path is the name of one of
the children it descends through. -/
theorem entriesUnderList_path_head (cs : List FS) :
    ∀ pe ∈ FS.entriesUnderList cs, ∃ c ∈ cs, ∃ tl, pe.1 = c.name :: tl := by
  induction cs with
  | nil => intro pe hpe; simp [FS.entriesUnderList] at hpe
  | cons c cs ih =>
    intro pe hpe
    rw [FS.entriesUnderList.eq_2] at hpe
    simp only [List.mem_cons, List.mem_append, List.mem_map] at hpe
    rcases hpe with (h | ⟨qe, hq1, hq⟩) | h
    · subst h; exact ⟨c, List.mem_cons_self c cs, [], rfl⟩
    · exact ⟨c, List.mem_cons_self c cs, qe.1, by rw [← hq]⟩
    · obtain ⟨c', hc', tl, htl⟩ := ih pe h
      exact ⟨c', List.mem_cons_of_mem c hc', tl, htl⟩

mutual
/-- Path lookup distributes over path concatenation. -/
theorem lookupIn_append : ∀ (t : FS) (p r : FsPath),
    t.lookupIn (p ++ r) = (t.lookupIn p).bind fun e => FS.lookupIn e r
  | t, [], r => by simp [FS.lookupIn]
  | .file n c, m :: p, r => by simp [FS.lookupIn]
  | .dir n cs, m :: p, r => by
    rw [List.cons_append, FS.lookupIn.eq_3, FS.lookupIn.eq_3]
    exact lookupInList_append cs m p r

/-- The list version of `lookupIn_append`. -/
theorem lookupInList_append : ∀ (cs : List FS) (m : Str) (p r : FsPath),
    FS.lookupInList cs m (p ++ r) = (FS.lookupInList cs m p).bind fun e => FS.lookupIn e r
  | [], m, p, r => by simp [FS.lookupInList]
  | c :: cs, m, p, r => by
    rw [FS.lookupInList.eq_2, FS.lookupInList.eq_2]
    by_cases hc : c.name = m
    · rw [if_pos hc, if_pos hc]
      exact lookupIn_append c p r
    · rw [if_neg hc, if_neg hc]
      exact lookupInList_append cs m p r
end

mutual
/-- Well-formedness is inherited by every entry below a well-formed tree. -/
theorem wellFormed_of_mem_entriesUnder : ∀ (t : FS), t.wellFormed = true →
    ∀ pe ∈ t.entriesUnder, pe.2.wellFormed = true
  | .file n c => by
    intro hwf pe hpe
    rw [FS.entriesUnder.eq_1] at hpe
    simp at hpe
  | .dir n cs => by
    intro hwf pe hpe
    rw [FS.entriesUnder.eq_2] at hpe
    rw [FS.wellFormed.eq_2, Bool.and_eq_true] at hwf
    exact wellFormedList_of_mem cs hwf.2 pe hpe

/-- The list version of `wellFormed_of_mem_entriesUnder`. -/
theorem wellFormedList_of_mem : ∀ (cs : List FS), FS.wellFormedList cs = true →
    ∀ pe ∈ FS.entriesUnderList cs, pe.2.wellFormed = true
  | [] => by
    intro h pe hpe
    rw [FS.entriesUnderList.eq_1] at hpe
    simp at hpe
  | c :: cs => by
    intro h pe hpe
    rw [FS.wellFormedList.eq_2, Bool.and_eq_true] at h
    rw [FS.entriesUnderList.eq_2] at hpe
    simp only [List.mem_cons, List.mem_append, List.mem_map] at hpe
    rcases hpe with (heq | ⟨qe, hq1, hq⟩) | htail
    · rw [heq]; exact h.1
    · rw [← hq]
      exact wellFormed_of_mem_entriesUnder c h.1 qe hq1
    · exact wellFormedList_of_mem cs h.2 pe htail
end

mutual
/-- In a well-formed tree, resolving a discovered entry's relative path finds
exactly that entry. -/
theorem lookupIn_of_mem_entriesUnder : ∀ (t : FS), t.wellFormed = true →
    ∀ pe ∈ t.entriesUnder, t.lookupIn pe.1 = some pe.2
  | .file n c => by
    intro hwf pe hpe
    rw [FS.entriesUnder.eq_1] at hpe
    simp at hpe
  | .dir n cs => by
    intro hwf pe hpe
    rw [FS.wellFormed.eq_2, Bool.and_eq_true] at hwf
    rw [FS.entriesUnder.eq_2] at hpe
    obtain ⟨c', hc', tl, htl⟩ := entriesUnderList_path_head cs pe hpe
    rw [htl, FS.lookupIn.eq_3]
    exact lookupInList_of_mem cs (by simpa using hwf.1) hwf.2 pe hpe c'.name tl htl
  termination_by t => sizeOf t

/-- The list version of `lookupIn_of_mem_entriesUnder`. -/
theorem lookupInList_of_mem : ∀ (cs : List FS), (cs.map FS.name).Nodup →
    FS.wellFormedList cs = true →
    ∀ pe ∈ FS.entriesUnderList cs, ∀ (m : Str) (tl : FsPath), pe.1 = m :: tl →
      FS.lookupInList cs m tl = some pe.2
  | [] => by
    intro _ _ pe hpe
    rw [FS.entriesUnderList.eq_1] at hpe
    simp at hpe
  | c :: cs => by
    intro hnd hwfl pe hpe m tl htl
    rw [FS.wellFormedList.eq_2, Bool.and_eq_true] at hwfl
    rw [List.map_cons, List.nodup_cons] at hnd
    rw [FS.entriesUnderList.eq_2] at hpe
    simp only [List.mem_cons, List.mem_append, List.mem_map] at hpe
    rw [FS.lookupInList.eq_2]
    rcases hpe with (heq | ⟨qe, hq1, hq⟩) | htail
    · rw [heq] at htl
      have hm : c.name = m := List.head_eq_of_cons_eq htl
      have htl0 : tl = [] := (List.tail_eq_of_cons_eq htl).symm
      rw [if_pos hm, htl0, heq, FS.lookupIn.eq_1]
    · rw [← hq] at htl
      have hm : c.name = m := List.head_eq_of_cons_eq htl
      have htl1 : qe.1 = tl := List.tail_eq_of_cons_eq htl
      rw [if_pos hm, htl1.symm, ← hq]
      exact lookupIn_of_mem_entriesUnder c hwfl.1 qe hq1
    · obtain ⟨c'', hc'', tl2, htl2⟩ := entriesUnderList_path_head cs pe htail
      have hm : c''.name = m := by rw [htl] at htl2; exact (List.head_eq_of_cons_eq htl2).symm
      have hne : c.name ≠ m := by
        rw [← hm]
        intro hcon
        exact hnd.1 (by rw [hcon]; exact List.mem_map_of_mem FS.name hc'')
      rw [if_neg hne]
      exact lookupInList_of_mem cs hnd.2 hwfl.2 pe htail m tl htl
  termination_by cs => sizeOf cs
end

mutual
/-- In a well-formed tree, counting entries at an exact (nonempty) relative
path that satisfy a predicate evaluates the predicate at the looked-up entry:
each resolvable path occurs exactly once in the walk. -/
theorem countP_entriesUnder_lookup : ∀ (t : FS), t.wellFormed = true →
    ∀ (m : Str) (tl : FsPath) (pr : FS → Bool),
      (t.entriesUnder).countP (fun pe => decide (pe.1 = m :: tl) && pr pe.2) =
        (match t.lookupIn (m :: tl) with
         | some x => if pr x then 1 else 0
         | none => 0)
  | .file n c => by
    intro hwf m tl pr
    rw [FS.entriesUnder.eq_1, List.countP_nil, FS.lookupIn.eq_2]
  | .dir n cs => by
    intro hwf m tl pr
    rw [FS.wellFormed.eq_2, Bool.and_eq_true] at hwf
    rw [FS.entriesUnder.eq_2, FS.lookupIn.eq_3]
    exact countP_entriesUnderList_lookup cs (by simpa using hwf.1) hwf.2 m tl pr
  termination_by t => sizeOf t

/-- The list version of `countP_entriesUnder_lookup`. -/
theorem countP_entriesUnderList_lookup : ∀ (cs : List FS),
    (cs.map FS.name).Nodup → FS.wellFormedList cs = true →
    ∀ (m : Str) (tl : FsPath) (pr : FS → Bool),
      (FS.entriesUnderList cs).countP (fun pe => decide (pe.1 = m :: tl) && pr pe.2) =
        (match FS.lookupInList cs m tl with
         | some x => if pr x then 1 else 0
         | none => 0)
  | [] => by
    intro _ _ m tl pr
    rw [FS.entriesUnderList.eq_1, FS.lookupInList.eq_1, List.countP_nil]
  | c :: cs => by
    intro hnd hwfl m tl pr
    rw [FS.wellFormedList.eq_2, Bool.and_eq_true] at hwfl
    rw [List.map_cons, List.nodup_cons] at hnd
    rw [FS.entriesUnderList.eq_2, FS.lookupInList.eq_2, List.countP_append,
      List.countP_cons, List.countP_map]
    by_cases hm : c.name = m
    · rw [if_pos hm]
      have htail : (FS.entriesUnderList cs).countP
          (fun pe => decide (pe.1 = m :: tl) && pr pe.2) = 0 := by
        rw [List.countP_eq_zero]
        intro pe hpe
        obtain ⟨c'', hc'', tl2, htl2⟩ := entriesUnderList_path_head cs pe hpe
        simp only [Bool.and_eq_true, decide_eq_true_eq, not_and]
        intro hcon
        rw [htl2] at hcon
        have heq2 : c''.name = m := List.head_eq_of_cons_eq hcon
        refine absurd ?_ hnd.1
        rw [hm, ← heq2]
        exact List.mem_map_of_mem FS.name hc''
      cases tl with
      | nil =>
        have hmap : (c.entriesUnder).countP
            ((fun pe => decide (pe.1 = m :: ([] : FsPath)) && pr pe.2) ∘
              fun pe => (c.name :: pe.1, pe.2)) = 0 := by
          rw [List.countP_eq_zero]
          intro qe hqe
          simp only [Function.comp_apply, Bool.and_eq_true, decide_eq_true_eq, not_and]
          intro hcon
          refine absurd (List.tail_eq_of_cons_eq hcon) ?_
          cases c with
          | file nn cc => rw [FS.entriesUnder.eq_1] at hqe; simp at hqe
          | dir nn ccs =>
            rw [FS.entriesUnder.eq_2] at hqe
            exact entriesUnderList_path_ne_nil ccs qe hqe
        rw [hmap, htail, FS.lookupIn.eq_1]
        have hhead : (decide ((([c.name], c) : FsPath × FS).1 = m :: ([] : FsPath)) && pr c)
            = pr c := by simp [hm]
        rw [hhead]
        cases hpc : pr c <;> simp [hpc]
      | cons t0 ts =>
        have hhead : (decide ((([c.name], c) : FsPath × FS).1 = m :: t0 :: ts) && pr c)
            = false := by simp
        rw [hhead, htail]
        have hmap : (c.entriesUnder).countP
            ((fun pe => decide (pe.1 = m :: t0 :: ts) && pr pe.2) ∘
              fun pe => (c.name :: pe.1, pe.2)) =
            (c.entriesUnder).countP (fun pe => decide (pe.1 = t0 :: ts) && pr pe.2) := by
          apply List.countP_congr
          intro qe hqe
          simp [hm]
        rw [hmap, countP_entriesUnder_lookup c hwfl.1 t0 ts pr]
        simp
    · rw [if_neg hm]
      have hhead : (decide ((([c.name], c) : FsPath × FS).1 = m :: tl) && pr c) = false := by
        simp only [Bool.and_eq_false_iff]
        left
        simp only [decide_eq_false_iff_not]
        intro hcon
        exact hm (List.head_eq_of_cons_eq hcon)
      have hmap : (c.entriesUnder).countP
          ((fun pe => decide (pe.1 = m :: tl) && pr pe.2) ∘
            fun pe => (c.name :: pe.1, pe.2)) = 0 := by
        rw [List.countP_eq_zero]
        intro qe hqe
        simp only [Function.comp_apply, Bool.and_eq_true, decide_eq_true_eq, not_and]
        intro hcon
        exact absurd (List.head_eq_of_cons_eq hcon) hm
      rw [hhead, hmap, countP_entriesUnderList_lookup cs hnd.2 hwfl.2 m tl pr]
      simp
  termination_by cs => sizeOf cs
end

/-- Counting one file's rendered path in the (pre-sort) enumeration: the file
at relative path `q` is listed once per `__fixtures__`-named ancestor
directory. -/
theorem presort_count (aiRoot : FsPath) (root : FS) (q : FsPath) (nm : Str)
    (ct : List Nat) (hwf : root.wellFormed = true)
    (hfile : root.lookupIn q = some (FS.file nm ct)) (hq : q ≠ []) :
    (((root.entriesUnder).flatMap fun dpe =>
        if dpe.2.name = fixturesDirName ∧ dpe.2.isDir then
          ((dpe.2.entriesUnder).filter fun fpe => fpe.2.isFile).map fun fpe =>
            ({ package := packageOf dpe.1
               path := aiRoot ++ ["packages".data] ++ dpe.1 ++ fpe.1 } : UpstreamFixture)
        else []).map fun f => f.path).countP
      (fun p => p == aiRoot ++ ["packages".data] ++ q) = ancestorFixturesCount root q := by
  have hb : ∀ l : List FsPath,
      l.countP (fun p => p == aiRoot ++ ["packages".data] ++ q) =
      l.countP fun p => decide (p = aiRoot ++ ["packages".data] ++ q) :=
    fun l => List.countP_congr fun x hx => by simp
  rw [hb, List.map_flatMap, List.countP_flatMap]
  have hpoint : ∀ dpe ∈ root.entriesUnder,
      ((List.countP fun p => decide (p = aiRoot ++ ["packages".data] ++ q)) ∘
        fun dpe : FsPath × FS => List.map (fun f : UpstreamFixture => f.path)
          (if dpe.2.name = fixturesDirName ∧ dpe.2.isDir then
            ((dpe.2.entriesUnder).filter fun fpe => fpe.2.isFile).map fun fpe =>
              ({ package := packageOf dpe.1
                 path := aiRoot ++ ["packages".data] ++ dpe.1 ++ fpe.1 } : UpstreamFixture)
          else [])) dpe
      = if decide (dpe.2.name = fixturesDirName ∧ dpe.2.isDir = true ∧ dpe.1 <+: q ∧
          dpe.1 ≠ q ∧ dpe.1 ≠ []) then 1 else 0 := by
    intro dpe hdpe
    simp only [Function.comp_apply]
    have hne : dpe.1 ≠ [] := by
      cases root with
      | file nn cc => rw [FS.entriesUnder.eq_1] at hdpe; simp at hdpe
      | dir nn ccs =>
        rw [FS.entriesUnder.eq_2] at hdpe
        exact entriesUnderList_path_ne_nil ccs dpe hdpe
    have hfne : ∀ fpe ∈ dpe.2.entriesUnder, fpe.1 ≠ [] := by
      intro fpe hfpe
      cases he : dpe.2 with
      | file nn cc => rw [he, FS.entriesUnder.eq_1] at hfpe; simp at hfpe
      | dir nn ccs =>
        rw [he, FS.entriesUnder.eq_2] at hfpe
        exact entriesUnderList_path_ne_nil ccs fpe hfpe
    by_cases hc : dpe.2.name = fixturesDirName ∧ dpe.2.isDir
    · rw [if_pos hc, List.map_map, List.countP_map, List.countP_filter]
      by_cases hpre : dpe.1 <+: q ∧ dpe.1 ≠ q
      · obtain ⟨r, hr⟩ := hpre.1
        have hrne : r ≠ [] := by
          intro h
          exact hpre.2 (by rw [← hr, h, List.append_nil])
        obtain ⟨r0, rs, hrr⟩ : ∃ a l, r = a :: l := by
          cases r with
          | nil => exact absurd rfl hrne
          | cons a l => exact ⟨a, l, rfl⟩
        have hiff2 : ∀ u : FsPath,
            aiRoot ++ ["packages".data] ++ dpe.1 ++ u = aiRoot ++ ["packages".data] ++ q ↔
            u = r := by
          intro u
          rw [← hr, ← List.append_assoc]
          exact ⟨List.append_cancel_left, fun h => by rw [h]⟩
        have hcong : (dpe.2.entriesUnder).countP (fun fpe =>
            ((fun p => decide (p = aiRoot ++ ["packages".data] ++ q)) ∘
              (fun f : UpstreamFixture => f.path) ∘ fun fpe =>
                ({ package := packageOf dpe.1
                   path := aiRoot ++ ["packages".data] ++ dpe.1 ++ fpe.1 } :
                  UpstreamFixture)) fpe && (fun fpe : FsPath × FS => fpe.2.isFile) fpe)
            = (dpe.2.entriesUnder).countP fun pe =>
                decide (pe.1 = r0 :: rs) && FS.isFile pe.2 := by
          apply List.countP_congr
          intro fpe hfpe
          simp only [Function.comp_apply, Bool.and_eq_true, decide_eq_true_eq]
          rw [hiff2 fpe.1, hrr]
        rw [hcong]
        rw [countP_entriesUnder_lookup dpe.2
          (wellFormed_of_mem_entriesUnder root hwf dpe hdpe) r0 rs FS.isFile]
        have hlk : dpe.2.lookupIn r = some (FS.file nm ct) := by
          have h1 := lookupIn_append root dpe.1 r
          rw [hr, hfile, lookupIn_of_mem_entriesUnder root hwf dpe hdpe,
            Option.some_bind] at h1
          exact h1.symm
        rw [← hrr, hlk]
        have hprop : dpe.2.name = fixturesDirName ∧ dpe.2.isDir = true ∧ dpe.1 <+: q ∧
            dpe.1 ≠ q ∧ dpe.1 ≠ [] := ⟨hc.1, hc.2, hpre.1, hpre.2, hne⟩
        simp [hprop, FS.isFile]
      · have hzero : (dpe.2.entriesUnder).countP (fun fpe =>
            ((fun p => decide (p = aiRoot ++ ["packages".data] ++ q)) ∘
              (fun f : UpstreamFixture => f.path) ∘ fun fpe =>
                ({ package := packageOf dpe.1
                   path := aiRoot ++ ["packages".data] ++ dpe.1 ++ fpe.1 } :
                  UpstreamFixture)) fpe && (fun fpe : FsPath × FS => fpe.2.isFile) fpe)
            = 0 := by
          rw [List.countP_eq_zero]
          intro fpe hfpe
          simp only [Function.comp_apply, Bool.and_eq_true, decide_eq_true_eq, not_and]
          intro hcon
          have hq2 : dpe.1 ++ fpe.1 = q := by
            have h2 : (aiRoot ++ ["packages".data]) ++ (dpe.1 ++ fpe.1)
                = (aiRoot ++ ["packages".data]) ++ q := by
              rw [← List.append_assoc]
              exact hcon
            exact List.append_cancel_left h2
          have hd1 : dpe.1 <+: q := ⟨fpe.1, hq2⟩
          have hd2 : dpe.1 ≠ q := by
            intro hdq
            apply hfne fpe hfpe
            have hlen := congrArg List.length hq2
            rw [hdq, List.length_append] at hlen
            have hf0 : fpe.1.length = 0 := by omega
            exact List.length_eq_zero.mp hf0
          exact (hpre ⟨hd1, hd2⟩).elim
        have hnp : ¬(dpe.2.name = fixturesDirName ∧ dpe.2.isDir = true ∧ dpe.1 <+: q ∧
            dpe.1 ≠ q ∧ dpe.1 ≠ []) := by
          intro hcon2
          exact hpre ⟨hcon2.2.2.1, hcon2.2.2.2.1⟩
        exact hzero.trans (by simp [hnp])
    · rw [if_neg hc]
      simp only [List.map_nil, List.countP_nil]
      have hnp : ¬(dpe.2.name = fixturesDirName ∧ dpe.2.isDir = true ∧ dpe.1 <+: q ∧
          dpe.1 ≠ q ∧ dpe.1 ≠ []) := by
        intro hcon2
        exact hc ⟨hcon2.1, hcon2.2.1⟩
      simp [hnp]
  rw [List.map_congr_left hpoint]
  have hiff : ∀ x : FsPath × FS,
      decide (x.2.name = fixturesDirName ∧ x.2.isDir = true ∧ x.1 <+: q ∧ x.1 ≠ q ∧
        x.1 ≠ []) = true ↔
      ∃ i, i < q.length ∧ (decide (0 < i) && (decide (x.1 = q.take i) &&
        (decide (x.2.name = fixturesDirName) && x.2.isDir))) = true := by
    intro x
    simp only [decide_eq_true_eq, Bool.and_eq_true]
    constructor
    · rintro ⟨h1, h2, h3, h4, h5⟩
      have htake : x.1 = q.take x.1.length := List.prefix_iff_eq_take.mp h3
      have hlt : x.1.length < q.length := by
        rcases Nat.lt_or_ge x.1.length q.length with h | h
        · exact h
        · exfalso
          apply h4
          have hlen : x.1.length = q.length := le_antisymm h3.length_le h
          rw [htake, hlen, List.take_length]
      exact ⟨x.1.length, hlt, List.length_pos.mpr h5, htake, h1, h2⟩
    · rintro ⟨i, hi, hpos, htake, h1, h2⟩
      refine ⟨h1, h2, ?_, ?_, ?_⟩
      · rw [htake]; exact List.take_prefix i q
      · intro hcon
        have hlen := congrArg List.length (htake.symm.trans hcon)
        rw [List.length_take] at hlen
        omega
      · intro hcon
        have hlen := congrArg List.length (hcon.symm.trans htake)
        rw [List.length_take] at hlen
        simp at hlen
        omega
  have huniq : ∀ (i j : Nat) (x : FsPath × FS), i < q.length → j < q.length →
      (decide (0 < i) && (decide (x.1 = q.take i) &&
        (decide (x.2.name = fixturesDirName) && x.2.isDir))) = true →
      (decide (0 < j) && (decide (x.1 = q.take j) &&
        (decide (x.2.name = fixturesDirName) && x.2.isDir))) = true → i = j := by
    intro i j x hi hj hQi hQj
    simp only [Bool.and_eq_true, decide_eq_true_eq] at hQi hQj
    have hlen := congrArg List.length (hQi.2.1.symm.trans hQj.2.1)
    rw [List.length_take, List.length_take] at hlen
    omega
  have hper : ∀ i ∈ List.range q.length,
      root.entriesUnder.countP (fun dpe => decide (0 < i) && (decide (dpe.1 = q.take i) &&
        (decide (dpe.2.name = fixturesDirName) && dpe.2.isDir)))
      = if (decide (0 < i) &&
          match root.lookupIn (q.take i) with
          | some (FS.dir nm2 _) => decide (nm2 = fixturesDirName)
          | _ => false) then 1 else 0 := by
    intro i hi
    rw [List.mem_range] at hi
    by_cases h0 : 0 < i
    · obtain ⟨m, tl, hmt⟩ : ∃ m tl, q.take i = m :: tl := by
        cases q with
        | nil => exact absurd rfl hq
        | cons a l =>
          cases i with
          | zero => omega
          | succ i' => exact ⟨a, l.take i', by rw [List.take_succ_cons]⟩
      have hcnt : root.entriesUnder.countP (fun dpe => decide (0 < i) &&
          (decide (dpe.1 = q.take i) && (decide (dpe.2.name = fixturesDirName) &&
            dpe.2.isDir)))
          = root.entriesUnder.countP fun pe => decide (pe.1 = m :: tl) &&
              (fun e => decide (e.name = fixturesDirName) && e.isDir) pe.2 := by
        apply List.countP_congr
        intro x hx
        simp [h0, hmt]
      rw [hcnt, countP_entriesUnder_lookup root hwf m tl
        (fun e => decide (e.name = fixturesDirName) && e.isDir), hmt]
      cases hl : root.lookupIn (m :: tl) with
      | none => simp
      | some x =>
        cases x with
        | file nn cc => simp [FS.name, FS.isDir]
        | dir nn cc => simp [FS.name, FS.isDir, h0]
    · have h0c : root.entriesUnder.countP (fun dpe => decide (0 < i) &&
          (decide (dpe.1 = q.take i) && (decide (dpe.2.name = fixturesDirName) &&
            dpe.2.isDir))) = 0 :=
        List.countP_eq_zero.mpr (by intro x hx; simp [h0])
      rw [h0c]
      simp [h0]
  have e1 := sum_indicator_eq_countP root.entriesUnder
    (fun dpe : FsPath × FS => decide (dpe.2.name = fixturesDirName ∧ dpe.2.isDir = true ∧
      dpe.1 <+: q ∧ dpe.1 ≠ q ∧ dpe.1 ≠ []))
  have e2 := countP_eq_sum_range root.entriesUnder
    (fun dpe : FsPath × FS => decide (dpe.2.name = fixturesDirName ∧ dpe.2.isDir = true ∧
      dpe.1 <+: q ∧ dpe.1 ≠ q ∧ dpe.1 ≠ []))
    (fun i dpe => decide (0 < i) && (decide (dpe.1 = q.take i) &&
      (decide (dpe.2.name = fixturesDirName) && dpe.2.isDir)))
    q.length hiff huniq
  have e3 : ((List.range q.length).map fun i =>
      root.entriesUnder.countP fun dpe => decide (0 < i) && (decide (dpe.1 = q.take i) &&
        (decide (dpe.2.name = fixturesDirName) && dpe.2.isDir))).sum
      = ((List.range q.length).map fun i =>
          if (decide (0 < i) &&
            match root.lookupIn (q.take i) with
            | some (FS.dir nm2 _) => decide (nm2 = fixturesDirName)
            | _ => false) then 1 else 0).sum := by
    rw [List.map_congr_left hper]
  have e4 := sum_indicator_eq_countP (List.range q.length)
    (fun i => decide (0 < i) &&
      match root.lookupIn (q.take i) with
      | some (FS.dir nm2 _) => decide (nm2 = fixturesDirName)
      | _ => false)
  have e5 : (List.range q.length).countP (fun i => decide (0 < i) &&
      match root.lookupIn (q.take i) with
      | some (FS.dir nm2 _) => decide (nm2 = fixturesDirName)
      | _ => false) = ancestorFixturesCount root q := by
    rw [ancestorFixturesCount, List.countP_eq_length_filter]
  exact e1.trans (e2.trans (e3.trans (e4.trans e5)))

/-- C10: with `__fixtures__` directories nested one beneath another, a file
below the inner one is collected once per `__fixtures__`-named ancestor
directory, so the enumerator's output contains its path once per such
ancestor (and hence may contain duplicates). -/
theorem claim_C10 (aiRoot : FsPath) (root : FS) (q : FsPath) (nm : Str) (ct : List Nat)
    (hwf : root.wellFormed = true)
    (hfile : root.lookupIn q = some (FS.file nm ct)) :
    ((iter_upstream_fixtures aiRoot (some root)).map fun f => f.path).count
      (aiRoot ++ ["packages".data] ++ q) = ancestorFixturesCount root q := by
  by_cases hq : q = []
  · subst hq
    rw [FS.lookupIn.eq_1] at hfile
    injection hfile with hroot
    subst hroot
    simp [iter_upstream_fixtures, rglobEntries, FS.entriesUnder, ancestorFixturesCount,
      List.mergeSort_nil]
  · simp only [iter_upstream_fixtures, rglobEntries]
    rw [List.count_eq_countP]
    rw [List.Perm.countP_eq _ ((List.mergeSort_perm _
      fun a b => decide (pathStr a.path ≤ pathStr b.path)).map
      fun f : UpstreamFixture => f.path)]
    exact presort_count aiRoot root q nm ct hwf hfile hq

/-- C10 witness: a `__fixtures__` directory nested inside another; the file
below the inner one has two `__fixtures__` ancestors and its path is listed
twice. -/
theorem claim_C10_witness :
    ((FS.dir "packages".data [FS.dir "p".data [FS.dir "__fixtures__".data
        [FS.dir "__fixtures__".data [FS.file "a.txt".data []],
          FS.file "b.txt".data []]]]).wellFormed = true ∧
      (FS.dir "packages".data [FS.dir "p".data [FS.dir "__fixtures__".data
        [FS.dir "__fixtures__".data [FS.file "a.txt".data []],
          FS.file "b.txt".data []]]]).lookupIn
        ["p".data, "__fixtures__".data, "__fixtures__".data, "a.txt".data]
        = some (FS.file "a.txt".data [])) ∧
    ((iter_upstream_fixtures ["ai".data]
        (some (FS.dir "packages".data [FS.dir "p".data [FS.dir "__fixtures__".data
          [FS.dir "__fixtures__".data [FS.file "a.txt".data []],
            FS.file "b.txt".data []]]]))).map fun f => f.path).count
      (["ai".data] ++ ["packages".data] ++
        ["p".data, "__fixtures__".data, "__fixtures__".data, "a.txt".data])
      = ancestorFixturesCount
        (FS.dir "packages".data [FS.dir "p".data [FS.dir "__fixtures__".data
          [FS.dir "__fixtures__".data [FS.file "a.txt".data []],
            FS.file "b.txt".data []]]])
        ["p".data, "__fixtures__".data, "__fixtures__".data, "a.txt".data] ∧
    ancestorFixturesCount
      (FS.dir "packages".data [FS.dir "p".data [FS.dir "__fixtures__".data
        [FS.dir "__fixtures__".data [FS.file "a.txt".data []],
          FS.file "b.txt".data []]]])
      ["p".data, "__fixtures__".data, "__fixtures__".data, "a.txt".data] = 2 :=
  ⟨⟨by decide, rfl⟩,
    claim_C10 ["ai".data]
      (FS.dir "packages".data [FS.dir "p".data [FS.dir "__fixtures__".data
        [FS.dir "__fixtures__".data [FS.file "a.txt".data []],
          FS.file "b.txt".data []]]])
      ["p".data, "__fixtures__".data, "__fixtures__".data, "a.txt".data]
      "a.txt".data [] (by decide) rfl,
    by decide⟩
